import Mathlib

/-!
Verification of the paginated-scan client in `mle/integration/github.py`
(class `GitHubIntegration`).

The embedding models the pure logic of the module.  Timestamps are integers
(seconds, UTC); a calendar date `d` is an integer day index, with
`startOfDay d = 86400 * d` and `endOfDay d = startOfDay d + 86399` — this is
exactly the `T00:00:00Z` / `23:59:59` arithmetic of the source.  The remote
paged source is a finite list of pages: requesting page `i` returns the
`i`-th entry, and any request past the end of the list returns the empty
page (which is how the GitHub API signals exhaustion and how the `while`
loops of the source terminate).  Python dictionaries are association lists
with Python 3.7 insert-or-update-in-place semantics.  Fallible Python code
(raised exceptions) is modelled with `Except`.
-/

namespace GitHubIntegration

/-- A transport failure raised by `requests` (`_make_request` lines 32-35):
`raise_for_status` errors carry the response's status code, connection-level
errors carry none (`e.response is None`). -/
structure TransportErr where
  message : String
  status : Option ℕ
deriving DecidableEq, Repr

/-- The Python exceptions this module can raise besides transport errors. -/
inductive PyError where
  | transport (e : TransportErr)
  | typeError
  | attributeError
deriving DecidableEq, Repr

/-- `00:00:00` UTC of day `d`, in seconds: the `f"{start_date}T00:00:00Z"`
/ `.replace(tzinfo=timezone.utc)` start-of-day used on lines 56 and 73. -/
def startOfDay (d : ℤ) : ℤ := 86400 * d

/-- `23:59:59` UTC of day `d`: the `.replace(hour=23, minute=59, second=59)`
end-of-day used on lines 69-71. -/
def endOfDay (d : ℤ) : ℤ := 86400 * d + 86399

/-- Python-truthiness limit test of lines 85 and 190:
`if limit and len(...) >= limit` — `limit=None` and `limit=0` are both
falsy, so only a nonzero limit is ever enforced. -/
def limitHitP (lim : Option ℕ) (n : ℕ) : Bool :=
  match lim with
  | none => false
  | some L => decide (L ≠ 0) && decide (L ≤ n)

/-- The numeric value of a set limit (used only after `limitHitP` holds). -/
def limValue : Option ℕ → ℕ
  | none => 0
  | some L => L

/-- Insert-or-update into a Python dict modelled as an association list:
an existing key keeps its position and gets the new value, a new key is
appended (Python 3.7+ dict semantics of `items[item['number']] = {...}`). -/
def dictInsert {κ α : Type} [DecidableEq κ] (m : List (κ × α)) (k : κ) (v : α) :
    List (κ × α) :=
  if m.any (fun q => decide (q.1 = k)) then
    m.map (fun q => if q.1 = k then (k, v) else q)
  else
    m ++ [(k, v)]

/-- The keys of a dict, in insertion order. -/
def dictKeys {κ α : Type} (m : List (κ × α)) : List κ := m.map Prod.fst

/-- A raw issue / pull-request as delivered by the paged endpoint, with the
fields `_process_items` reads: `number`, `title`, `state`, `created_at`
(already parsed from its `"%Y-%m-%dT%H:%M:%SZ"` wire form to seconds UTC),
`user.login` and `body`. -/
structure RawItem where
  number : ℕ
  title : String
  state : String
  created_at : ℤ
  author : String
  body : String
deriving DecidableEq, Repr

/-- The normalized record built on lines 76-83. -/
structure ItemRecord where
  number : ℕ
  title : String
  state : String
  created_at : ℤ
  author : String
  body : String
deriving DecidableEq, Repr

/-- The `items` dictionary of `_process_items`, keyed by `item['number']`. -/
abbrev ItemDict : Type := List (ℕ × ItemRecord)

/-- Line 69-72: with `end_date` set, an item strictly newer than
end-of-day(`end_date`) is skipped (`continue`). -/
def endSkip (ed : Option ℤ) (t : ℤ) : Bool :=
  match ed with
  | none => false
  | some d => decide (endOfDay d < t)

/-- Line 73-74: with `start_date` set, an item strictly older than
start-of-day(`start_date`) stops the whole scan (`return items`). -/
def startStop (sd : Option ℤ) (t : ℤ) : Bool :=
  match sd with
  | none => false
  | some d => decide (t < startOfDay d)

/-- Lines 76-83: the normalized record stored for an included item. -/
def toItemRecord (it : RawItem) : ItemRecord :=
  ⟨it.number, it.title, it.state, it.created_at, it.author, it.body⟩

/-- The inner `for item in page_items` loop of `_process_items`
(lines 66-86) on one page.  Returns the updated `items` dict and whether
one of the two `return items` statements fired (start-date early stop on
line 74, or the limit check on lines 85-86). -/
def scanPage (sd ed : Option ℤ) (lim : Option ℕ) :
    List RawItem → ItemDict → ItemDict × Bool
  | [], acc => (acc, false)
  | it :: rest, acc =>
    if endSkip ed it.created_at then
      scanPage sd ed lim rest acc
    else if startStop sd it.created_at then
      (acc, true)
    else if limitHitP lim (dictInsert acc it.number (toItemRecord it)).length then
      (dictInsert acc it.number (toItemRecord it), true)
    else
      scanPage sd ed lim rest (dictInsert acc it.number (toItemRecord it))

/-- The `while True` page loop of `_process_items` (lines 59-90) over a
source holding the given list of pages; a request past the end of the list
yields the empty page (line 63-64 `if not page_items: break`).  Returns the
final `items` dict together with the number of `_make_request` calls made. -/
def scanPages (sd ed : Option ℤ) (lim : Option ℕ) :
    List (List RawItem) → ItemDict → ItemDict × ℕ
  | [], acc => (acc, 1)
  | p :: ps, acc =>
    if p = [] then (acc, 1)
    else if (scanPage sd ed lim p acc).2 then
      ((scanPage sd ed lim p acc).1, 1)
    else
      ((scanPages sd ed lim ps (scanPage sd ed lim p acc).1).1,
       (scanPages sd ed lim ps (scanPage sd ed lim p acc).1).2 + 1)

/-- `_process_items` (lines 37-90).  `endpoint` and `username` only shape
the request parameters sent to the server (lines 47-56) and do not enter
the client-side logic; the pages the server answers with are the
`pages` argument.  Returns the result dict and the request count. -/
def processItems (endpoint : String) (sd ed : Option ℤ) (username : Option String)
    (lim : Option ℕ) (pages : List (List RawItem)) : ItemDict × ℕ :=
  scanPages sd ed lim pages []

/-- `get_issues` (lines 215-224). -/
def get_issues (sd ed : Option ℤ) (username : Option String) (lim : Option ℕ)
    (pages : List (List RawItem)) : ItemDict × ℕ :=
  processItems "issues" sd ed username lim pages

/-- `get_pull_requests` (lines 226-235). -/
def get_pull_requests (sd ed : Option ℤ) (username : Option String) (lim : Option ℕ)
    (pages : List (List RawItem)) : ItemDict × ℕ :=
  processItems "pulls" sd ed username lim pages

/-- A raw commit as delivered by the `commits` endpoint, with the fields
`get_commit_history` reads: `sha`, `commit.author.name`,
`commit.author.date` (parsed to seconds UTC), `commit.message`, and the
top-level `author` field, which is `null` for commits not linked to a
GitHub account (modelled as `none`) and otherwise carries a `login`. -/
structure RawCommit where
  sha : String
  commitAuthorName : String
  commitAuthorDate : ℤ
  commitMessage : String
  author : Option String
deriving DecidableEq, Repr

/-- The normalized record built on lines 206-211. -/
structure CommitRec where
  author : String
  username : Option String
  date : ℤ
  message : String
deriving DecidableEq, Repr

/-- The `commit_history` dictionary, keyed by `commit['sha']`. -/
abbrev CommitDict : Type := List (String × CommitRec)

/-- The fetch loop of `get_commit_history` (lines 182-193): accumulate raw
pages until an empty page, or until the accumulated count reaches a set
limit, in which case the accumulator is truncated to exactly `limit` and
the loop breaks.  No date or author logic appears here — those parameters
only shape the request (lines 174-180); filtering happens afterwards.
Returns the raw `commits` list and the number of requests made. -/
def fetchCommitsGo (lim : Option ℕ) :
    List (List RawCommit) → List RawCommit → List RawCommit × ℕ
  | [], acc => (acc, 1)
  | p :: ps, acc =>
    if p = [] then (acc, 1)
    else if limitHitP lim (acc ++ p).length then
      ((acc ++ p).take (limValue lim), 1)
    else
      ((fetchCommitsGo lim ps (acc ++ p)).1,
       (fetchCommitsGo lim ps (acc ++ p)).2 + 1)

/-- Line 200-201: `not start_date or commit_date >= start-of-day`. -/
def startOkC (sd : Option ℤ) (t : ℤ) : Bool :=
  match sd with
  | none => true
  | some d => decide (startOfDay d ≤ t)

/-- Lines 202-204: `not end_date or commit_date <= end-of-day`. -/
def endOkC (ed : Option ℤ) (t : ℤ) : Bool :=
  match ed with
  | none => true
  | some d => decide (t ≤ endOfDay d)

/-- The filter condition of lines 200-205, with Python's left-to-right
short-circuit `and`.  The last conjunct, `commit['author']['login'] ==
username`, subscripts `commit['author']` without a null check: when the
`author` field is `null` and a username filter is set, Python raises
`TypeError` — unlike line 208, which does guard the same field. -/
def commitMatch (sd ed : Option ℤ) (u : Option String) (c : RawCommit) :
    Except PyError Bool :=
  if startOkC sd c.commitAuthorDate then
    if endOkC ed c.commitAuthorDate then
      match u with
      | none => .ok true
      | some name =>
        match c.author with
        | none => .error .typeError
        | some login => .ok (decide (login = name))
    else .ok false
  else .ok false

/-- Lines 206-211: the normalized commit record; `commit['author']['login']
if commit['author'] else None` keeps a null author as `None`. -/
def toCommitRec (c : RawCommit) : CommitRec :=
  ⟨c.commitAuthorName, c.author, c.commitAuthorDate, c.commitMessage⟩

/-- The client-side filter loop of `get_commit_history` (lines 195-211)
over the accumulated raw commits. -/
def buildHistory (sd ed : Option ℤ) (u : Option String) :
    List RawCommit → CommitDict → Except PyError CommitDict
  | [], acc => .ok acc
  | c :: rest, acc =>
    match commitMatch sd ed u c with
    | .error e => .error e
    | .ok true => buildHistory sd ed u rest (dictInsert acc c.sha (toCommitRec c))
    | .ok false => buildHistory sd ed u rest acc

/-- `get_commit_history` (lines 165-213): fetch raw pages first
(lines 182-193), then filter client-side (lines 195-211). -/
def get_commit_history (sd ed : Option ℤ) (u : Option String) (lim : Option ℕ)
    (pages : List (List RawCommit)) : Except PyError CommitDict :=
  buildHistory sd ed u (fetchCommitsGo lim pages []).1 []

/-- The number of `_make_request` calls `get_commit_history` makes. -/
def commitRequests (lim : Option ℕ) (pages : List (List RawCommit)) : ℕ :=
  (fetchCommitsGo lim pages []).2

/-- The `license` object of the repository metadata, when the key is
present: its `name` and `url` sub-fields may themselves be absent. -/
structure LicenseMeta where
  name : Option String
  url : Option String
deriving DecidableEq, Repr

/-- The repository metadata returned by `_make_request()`; `license` is
`none` when the key is absent from the JSON object. -/
structure RepoMeta where
  license : Option LicenseMeta
deriving DecidableEq, Repr

/-- The record `get_license` returns. -/
structure LicenseRec where
  name : Option String
  url : Option String
deriving DecidableEq, Repr

/-- `get_license` (lines 102-111): `.get("license", {})` turns an absent
`license` key into an empty dict, whose `.get("name")` / `.get("url")` are
both `None`.  A transport failure in `_make_request` propagates. -/
def get_license (resp : Except TransportErr RepoMeta) : Except TransportErr LicenseRec :=
  match resp with
  | .error e => .error e
  | .ok meta =>
    match meta.license with
    | none => .ok ⟨none, none⟩
    | some l => .ok ⟨l.name, l.url⟩

/-- A raw contributor entry (`login`, `avatar_url`, `contributions`). -/
structure ContributorRaw where
  login : String
  avatar_url : String
  contributions : ℕ
deriving DecidableEq, Repr

/-- The record built per contributor on lines 119-123. -/
structure ContributorRec where
  user : String
  avatar : String
  contributions : ℕ
deriving DecidableEq, Repr

/-- `get_contributors` (lines 113-125): a pure field mapping over the
response list; a transport failure propagates. -/
def get_contributors (resp : Except TransportErr (List ContributorRaw)) :
    Except TransportErr (List ContributorRec) :=
  match resp with
  | .error e => .error e
  | .ok l => .ok (l.map fun c => ⟨c.login, c.avatar_url, c.contributions⟩)

/-- A commit object inside a pull request, as used by `get_user_activity`
line 321 (`commit['commit']['message']`). -/
structure PRCommitRaw where
  message : String
deriving DecidableEq, Repr

/-- `get_pull_request_commits` (lines 237-243): returns the response of
`_make_request` unchanged, so a transport failure propagates. -/
def get_pull_request_commits (resp : Except TransportErr (List PRCommitRaw)) :
    Except TransportErr (List PRCommitRaw) :=
  resp

/-- The ` (Status code: ...)` suffix appended when the transport error
carries a response (`if e.response is not None`, line 256). -/
def statusSuffix : Option ℕ → String
  | none => ""
  | some code => " (Status code: " ++ toString code ++ ")"

/-- `get_pull_request_diff` (lines 245-259): on success the JSON response
is returned as-is (left injection); a `RequestException` is caught and
converted into the placeholder string of lines 255-259 (right injection),
so the failure does not propagate. -/
def get_pull_request_diff {α : Type} (prNumber : ℕ) (resp : Except TransportErr α) :
    α ⊕ String :=
  match resp with
  | .ok j => .inl j
  | .error e =>
    .inr ("Unable to fetch diff: Error fetching PR #" ++ toString prNumber
      ++ " diff: " ++ e.message ++ statusSuffix e.status)

/-- How a file item of `get_source_code` obtains its content
(lines 148-155): inline base64 `content` (already decoded here), a
fallible `download_url` fetch, or neither (the too-large case). -/
inductive FileSource where
  | inline (content : String)
  | download (resp : Except TransportErr String)
  | toolarge (size : Option ℕ)
deriving Repr

/-- A file item yielded by the `get_contents` traversal of
`get_source_code`, carrying its `path` and its content source. -/
structure FileItem where
  path : String
  src : FileSource
deriving Repr

/-- `item.get('size', 'unknown')` of line 155. -/
def sizeStr : Option ℕ → String
  | none => "unknown"
  | some n => toString n

/-- The `try`/`except` body of `get_source_code` (lines 147-162) for one
file item.  A failing download raises `RequestException`; the handler
builds `"Error: ..."` and, because the exception is a `RequestException`,
unconditionally appends `e.response.status_code` (line 160).  When the
failure carried no response (`e.response is None`, e.g. a connection
error), that attribute access itself raises `AttributeError`, which is not
caught, so the whole call aborts instead of producing a placeholder. -/
def processFileItem (it : FileItem) : Except PyError String :=
  match it.src with
  | .inline c => .ok c
  | .download (.ok text) => .ok text
  | .download (.error e) =>
    match e.status with
    | some code =>
      .ok ("Unable to process content: Error: " ++ e.message
        ++ " (Status code: " ++ toString code ++ ")")
    | none => .error .attributeError
  | .toolarge sz => .ok ("File too large to process directly. Size: "
      ++ sizeStr sz ++ " bytes")

/-- The `source_code` dictionary, keyed by file path. -/
abbrev SourceDict : Type := List (String × String)

/-- The `for item in get_contents()` loop of lines 146-162. -/
def sourceCodeGo : List FileItem → SourceDict → Except PyError SourceDict
  | [], acc => .ok acc
  | it :: rest, acc =>
    match processFileItem it with
    | .error e => .error e
    | .ok content => sourceCodeGo rest (dictInsert acc it.path content)

/-- `get_source_code` (lines 127-163).  `contents` is the outcome of the
`get_contents` directory traversal (lines 134-143), whose own
`_make_request` calls sit outside the per-file `try`: a transport failure
there propagates and fails the whole call. -/
def get_source_code (contents : Except TransportErr (List FileItem)) :
    Except PyError SourceDict :=
  match contents with
  | .error e => .error (.transport e)
  | .ok items => sourceCodeGo items []

/-- A raw release entry with the fields read on lines 267-274. -/
structure ReleaseRaw where
  name : String
  tag_name : String
  body : String
  draft : Bool
  prerelease : Bool
  created_at : ℤ
  published_at : ℤ
deriving DecidableEq, Repr

/-- The record built per release on lines 267-275. -/
structure ReleaseRec where
  name : String
  version : String
  body : String
  draft : Bool
  prerelease : Bool
  created_at : ℤ
  published_at : ℤ
deriving DecidableEq, Repr

/-- `get_releases` (lines 261-277): a pure field mapping over the response
list (`limit` is only the server-side `per_page` parameter); a transport
failure propagates. -/
def get_releases (perPage : ℕ) (resp : Except TransportErr (List ReleaseRaw)) :
    Except TransportErr (List ReleaseRec) :=
  match resp with
  | .error e => .error e
  | .ok l => .ok (l.map fun r =>
      ⟨r.name, r.tag_name, r.body, r.draft, r.prerelease, r.created_at, r.published_at⟩)

/-- The keyword parameters accepted by Python's `datetime.replace`. -/
def datetimeReplaceKeywords : List String :=
  ["year", "month", "day", "hour", "minute", "second", "microsecond", "tzinfo", "fold"]

/-- Whether `datetime.replace` accepts the given keyword argument; an
unexpected keyword raises `TypeError` in Python. -/
def datetimeReplaceAccepts (kw : String) : Bool :=
  datetimeReplaceKeywords.contains kw

/-- The period computation of `get_user_activity` (lines 288-299) over day
indices.  With `end_date` omitted, the period ends today (`nowDay`, the
date of `datetime.now(timezone.utc)`) and, with `start_date` also omitted,
starts six days earlier (lines 289-290, 295-297).  With `end_date`
supplied, line 292-293 calls `datetime.replace(hour=23, minute=59,
second=59, zinfo=timezone.utc)`: `zinfo` is not an accepted keyword of
`datetime.replace`, so the call raises `TypeError` unconditionally. -/
def activityPeriod (nowDay : ℤ) (start_date end_date : Option ℤ) :
    Except PyError (ℤ × ℤ) :=
  match end_date with
  | none =>
    let e := nowDay
    match start_date with
    | none => .ok (e - 6, e)
    | some s => .ok (s, e)
  | some d =>
    if datetimeReplaceAccepts "zinfo" then
      match start_date with
      | none => .ok (d - 6, d)
      | some s => .ok (s, d)
    else
      .error .typeError

/-- One entry of `pr_details` (lines 313-322). -/
structure PRDetail where
  number : ℕ
  title : String
  description : String
  status : String
  commitCount : ℕ
  commitMessages : List String
deriving DecidableEq, Repr

/-- One entry of `issue_details` (lines 326-330). -/
structure IssueDetail where
  number : ℕ
  title : String
  description : String
deriving DecidableEq, Repr

/-- The report compiled on lines 332-356. -/
structure Report where
  username : String
  periodStart : ℤ
  periodEnd : ℤ
  totalCommits : ℕ
  totalPullRequests : ℕ
  totalIssues : ℕ
  commitMessages : List String
  prDetails : List PRDetail
  issueDetails : List IssueDetail
deriving DecidableEq, Repr

/-- `get_user_activity` (lines 279-358).  The remote data the three
fetchers would receive is passed in as `commitPages`, `prPages` and
`issuePages`; `prCommits` answers `get_pull_request_commits(pr_number)`.
The period is computed first (lines 288-299); only if that succeeds are
the data sources consulted (lines 301-304) and the report compiled. -/
def get_user_activity (username : String) (start_date end_date : Option ℤ)
    (nowDay : ℤ) (commitPages : List (List RawCommit))
    (prPages issuePages : List (List RawItem))
    (prCommits : ℕ → List PRCommitRaw) : Except PyError Report :=
  match activityPeriod nowDay start_date end_date with
  | .error e => .error e
  | .ok (s, e) =>
    match get_commit_history (some s) (some e) (some username) none commitPages with
    | .error err => .error err
    | .ok commits =>
      let pullRequests := (get_pull_requests (some s) (some e) (some username) none prPages).1
      let issues := (get_issues (some s) (some e) (some username) none issuePages).1
      .ok
        { username := username
          periodStart := s
          periodEnd := e
          totalCommits := commits.length
          totalPullRequests := pullRequests.length
          totalIssues := issues.length
          commitMessages := commits.map (fun q => q.2.message)
          prDetails := pullRequests.map (fun q =>
            { number := q.2.number
              title := q.2.title
              description := q.2.body
              status := q.2.state
              commitCount := (prCommits q.2.number).length
              commitMessages := (prCommits q.2.number).map (fun c => c.message) })
          issueDetails := issues.map (fun q =>
            { number := q.2.number, title := q.2.title, description := q.2.body }) }

/-- The page loop of `_process_items` with each page fetch's transport
outcome explicit: a raised `RequestException` on any `_make_request` call
(line 62) is not caught anywhere in `_process_items`, so it propagates to
the caller. -/
def scanPagesE (sd ed : Option ℤ) (lim : Option ℕ) :
    List (Except TransportErr (List RawItem)) → ItemDict →
    Except TransportErr (ItemDict × ℕ)
  | [], acc => .ok (acc, 1)
  | r :: ps, acc =>
    match r with
    | .error e => .error e
    | .ok p =>
      if p = [] then .ok (acc, 1)
      else if (scanPage sd ed lim p acc).2 then .ok ((scanPage sd ed lim p acc).1, 1)
      else
        match scanPagesE sd ed lim ps (scanPage sd ed lim p acc).1 with
        | .error e => .error e
        | .ok (d, n) => .ok (d, n + 1)

/-- The fetch loop of `get_commit_history` with each page fetch's
transport outcome explicit: a raised `RequestException` on line 186 is not
caught, so it propagates to the caller. -/
def fetchCommitsGoE (lim : Option ℕ) :
    List (Except TransportErr (List RawCommit)) → List RawCommit →
    Except TransportErr (List RawCommit × ℕ)
  | [], acc => .ok (acc, 1)
  | r :: ps, acc =>
    match r with
    | .error e => .error e
    | .ok p =>
      if p = [] then .ok (acc, 1)
      else if limitHitP lim (acc ++ p).length then .ok ((acc ++ p).take (limValue lim), 1)
      else
        match fetchCommitsGoE lim ps (acc ++ p) with
        | .error e => .error e
        | .ok (l, n) => .ok (l, n + 1)

/-! ### Dictionary lemmas -/

lemma dictKeys_nil {κ α : Type} : dictKeys ([] : List (κ × α)) = [] := rfl

lemma any_key_iff {κ α : Type} [DecidableEq κ] (m : List (κ × α)) (k : κ) :
    m.any (fun q => decide (q.1 = k)) = true ↔ k ∈ dictKeys m := by
  constructor
  · intro h
    rcases List.any_eq_true.1 h with ⟨x, hx, hxk⟩
    have hk : x.1 = k := of_decide_eq_true hxk
    exact hk ▸ List.mem_map_of_mem Prod.fst hx
  · intro h
    rcases List.mem_map.1 h with ⟨x, hx, hxk⟩
    exact List.any_eq_true.2 ⟨x, hx, decide_eq_true hxk⟩

lemma mem_dictInsert {κ α : Type} [DecidableEq κ] {m : List (κ × α)} {k : κ}
    {v : α} {q : κ × α} (h : q ∈ dictInsert m k v) : q ∈ m ∨ q = (k, v) := by
  unfold dictInsert at h
  split at h
  · rcases List.mem_map.1 h with ⟨p, hp, hpq⟩
    by_cases hk : p.1 = k
    · rw [if_pos hk] at hpq
      exact Or.inr hpq.symm
    · rw [if_neg hk] at hpq
      exact Or.inl (hpq ▸ hp)
  · rcases List.mem_append.1 h with h1 | h1
    · exact Or.inl h1
    · right; simpa using h1

lemma keys_dictInsert_of_mem {κ α : Type} [DecidableEq κ] {m : List (κ × α)}
    {k : κ} (v : α) (h : k ∈ dictKeys m) :
    dictKeys (dictInsert m k v) = dictKeys m := by
  unfold dictInsert
  rw [if_pos ((any_key_iff m k).2 h)]
  unfold dictKeys
  rw [List.map_map]
  apply List.map_congr_left
  intro p _
  by_cases hk : p.1 = k <;> simp [hk]

lemma keys_dictInsert_of_not_mem {κ α : Type} [DecidableEq κ] {m : List (κ × α)}
    {k : κ} (v : α) (h : k ∉ dictKeys m) :
    dictKeys (dictInsert m k v) = dictKeys m ++ [k] := by
  unfold dictInsert
  rw [if_neg (fun hc => h ((any_key_iff m k).1 hc))]
  simp [dictKeys]

lemma mem_keys_dictInsert {κ α : Type} [DecidableEq κ] (m : List (κ × α))
    (k : κ) (v : α) (a : κ) :
    a ∈ dictKeys (dictInsert m k v) ↔ a ∈ dictKeys m ∨ a = k := by
  by_cases h : k ∈ dictKeys m
  · rw [keys_dictInsert_of_mem v h]
    constructor
    · exact Or.inl
    · rintro (ha | rfl)
      · exact ha
      · exact h
  · rw [keys_dictInsert_of_not_mem v h]
    simp

lemma length_dictKeys {κ α : Type} (m : List (κ × α)) :
    (dictKeys m).length = m.length := List.length_map _ _

lemma length_dictInsert_le {κ α : Type} [DecidableEq κ] (m : List (κ × α))
    (k : κ) (v : α) : (dictInsert m k v).length ≤ m.length + 1 := by
  unfold dictInsert
  split
  · simp
  · simp

lemma length_dictInsert_of_not_mem {κ α : Type} [DecidableEq κ] {m : List (κ × α)}
    {k : κ} (v : α) (h : k ∉ dictKeys m) :
    (dictInsert m k v).length = m.length + 1 := by
  have := keys_dictInsert_of_not_mem (m := m) v h
  have h1 := length_dictKeys (dictInsert m k v)
  rw [this] at h1
  simp [length_dictKeys] at h1
  omega

/-! ### Scan lemmas for `_process_items` -/

lemma le_of_startStop_false {d t : ℤ} (h : startStop (some d) t = false) :
    startOfDay d ≤ t := by
  simp only [startStop, decide_eq_false_iff_not] at h
  exact le_of_not_lt h

lemma scanPage_start_mem (d : ℤ) (ed : Option ℤ) (lim : Option ℕ) :
    ∀ (l : List RawItem) (acc : ItemDict),
      (∀ q ∈ acc, startOfDay d ≤ q.2.created_at) →
      ∀ q ∈ (scanPage (some d) ed lim l acc).1, startOfDay d ≤ q.2.created_at
  | [], acc, hacc => by simpa only [scanPage] using hacc
  | it :: rest, acc, hacc => by
    simp only [scanPage]
    split_ifs with he hs hl
    · exact scanPage_start_mem d ed lim rest acc hacc
    · exact hacc
    · intro q hq
      rcases mem_dictInsert hq with h1 | h1
      · exact hacc q h1
      · subst h1
        exact le_of_startStop_false (Bool.not_eq_true _ ▸ hs)
    · apply scanPage_start_mem d ed lim rest
      intro q hq
      rcases mem_dictInsert hq with h1 | h1
      · exact hacc q h1
      · subst h1
        exact le_of_startStop_false (Bool.not_eq_true _ ▸ hs)

lemma scanPages_start_mem (d : ℤ) (ed : Option ℤ) (lim : Option ℕ) :
    ∀ (ps : List (List RawItem)) (acc : ItemDict),
      (∀ q ∈ acc, startOfDay d ≤ q.2.created_at) →
      ∀ q ∈ (scanPages (some d) ed lim ps acc).1, startOfDay d ≤ q.2.created_at
  | [], acc, hacc => by simpa only [scanPages] using hacc
  | p :: ps, acc, hacc => by
    simp only [scanPages]
    split_ifs with hp hstop
    · exact hacc
    · exact scanPage_start_mem d ed lim p acc hacc
    · exact scanPages_start_mem d ed lim ps _ (scanPage_start_mem d ed lim p acc hacc)

lemma mem_keys_scanPage (sd ed : Option ℤ) (lim : Option ℕ) (a : ℕ) :
    ∀ (l : List RawItem) (acc : ItemDict),
      a ∈ dictKeys acc → a ∈ dictKeys (scanPage sd ed lim l acc).1
  | [], acc, h => by simpa only [scanPage] using h
  | it :: rest, acc, h => by
    simp only [scanPage]
    split_ifs with he hs hl
    · exact mem_keys_scanPage sd ed lim a rest acc h
    · exact h
    · exact (mem_keys_dictInsert _ _ _ a).2 (Or.inl h)
    · exact mem_keys_scanPage sd ed lim a rest _
        ((mem_keys_dictInsert _ _ _ a).2 (Or.inl h))

lemma mem_keys_scanPages (sd ed : Option ℤ) (lim : Option ℕ) (a : ℕ) :
    ∀ (ps : List (List RawItem)) (acc : ItemDict),
      a ∈ dictKeys acc → a ∈ dictKeys (scanPages sd ed lim ps acc).1
  | [], acc, h => by simpa only [scanPages] using h
  | p :: ps, acc, h => by
    simp only [scanPages]
    split_ifs with hp hstop
    · exact h
    · exact mem_keys_scanPage sd ed lim a p acc h
    · exact mem_keys_scanPages sd ed lim a ps _ (mem_keys_scanPage sd ed lim a p acc h)

lemma limitHitP_some_iff (L n : ℕ) (hL : 0 < L) :
    limitHitP (some L) n = true ↔ L ≤ n := by
  simp [limitHitP]
  omega

lemma scanPage_le_limit (sd ed : Option ℤ) (L : ℕ) (hL : 0 < L) :
    ∀ (l : List RawItem) (acc : ItemDict), acc.length < L →
      (scanPage sd ed (some L) l acc).1.length ≤ L ∧
      ((scanPage sd ed (some L) l acc).2 = false →
        (scanPage sd ed (some L) l acc).1.length < L)
  | [], acc, hacc => by
    simp only [scanPage]
    exact ⟨Nat.le_of_lt hacc, fun _ => hacc⟩
  | it :: rest, acc, hacc => by
    simp only [scanPage]
    split_ifs with he hs hl
    · exact scanPage_le_limit sd ed L hL rest acc hacc
    · exact ⟨Nat.le_of_lt hacc, fun h => by simp at h⟩
    · refine ⟨?_, fun h => by simp at h⟩
      show (dictInsert acc it.number (toItemRecord it)).length ≤ L
      have h1 := length_dictInsert_le acc it.number (toItemRecord it)
      omega
    · apply scanPage_le_limit sd ed L hL rest
      have h1 := length_dictInsert_le acc it.number (toItemRecord it)
      have h2 : ¬ L ≤ (dictInsert acc it.number (toItemRecord it)).length :=
        fun hc => hl ((limitHitP_some_iff L _ hL).2 hc)
      omega

lemma scanPages_le_limit (sd ed : Option ℤ) (L : ℕ) (hL : 0 < L) :
    ∀ (ps : List (List RawItem)) (acc : ItemDict), acc.length < L →
      (scanPages sd ed (some L) ps acc).1.length ≤ L
  | [], acc, hacc => by simpa only [scanPages] using Nat.le_of_lt hacc
  | p :: ps, acc, hacc => by
    simp only [scanPages]
    split_ifs with hp hstop
    · exact Nat.le_of_lt hacc
    · exact (scanPage_le_limit sd ed L hL p acc hacc).1
    · exact scanPages_le_limit sd ed L hL ps _
        ((scanPage_le_limit sd ed L hL p acc hacc).2 (Bool.not_eq_true _ ▸ hstop))

/-! ### Lemmas for `get_commit_history` -/

lemma fetchCommitsGo_le (L : ℕ) (hL : 0 < L) :
    ∀ (ps : List (List RawCommit)) (acc : List RawCommit), acc.length < L →
      (fetchCommitsGo (some L) ps acc).1.length ≤ L
  | [], acc, hacc => by simpa only [fetchCommitsGo] using Nat.le_of_lt hacc
  | p :: ps, acc, hacc => by
    simp only [fetchCommitsGo]
    split_ifs with hp hl
    · exact Nat.le_of_lt hacc
    · show ((acc ++ p).take (limValue (some L))).length ≤ L
      simp [limValue]
    · apply fetchCommitsGo_le L hL ps
      have h2 : ¬ L ≤ (acc ++ p).length :=
        fun hc => hl ((limitHitP_some_iff L _ hL).2 hc)
      omega

lemma fetchCommitsGo_take (L : ℕ) (hL : 0 < L) :
    ∀ (ps : List (List RawCommit)) (acc : List RawCommit),
      (∀ p ∈ ps, p ≠ []) → acc.length < L →
      (fetchCommitsGo (some L) ps acc).1 = (acc ++ ps.join).take L
  | [], acc, _, hacc => by
    simp only [fetchCommitsGo, List.join_nil, List.append_nil]
    exact (List.take_of_length_le (Nat.le_of_lt hacc)).symm
  | p :: ps, acc, hne, hacc => by
    have hp : ¬ p = [] := hne p (List.mem_cons_self p ps)
    simp only [fetchCommitsGo]
    rw [if_neg hp]
    by_cases hl : limitHitP (some L) (acc ++ p).length
    · rw [if_pos hl]
      have hLlen : L ≤ (acc ++ p).length := (limitHitP_some_iff L _ hL).1 hl
      show (acc ++ p).take (limValue (some L)) = _
      simp only [limValue, List.join_cons, ← List.append_assoc]
      exact (List.take_append_of_le_length hLlen).symm
    · rw [if_neg hl]
      have h2 : (acc ++ p).length < L := by
        have : ¬ L ≤ (acc ++ p).length :=
          fun hc => hl ((limitHitP_some_iff L _ hL).2 hc)
        omega
      show (fetchCommitsGo (some L) ps (acc ++ p)).1 = _
      rw [fetchCommitsGo_take L hL ps (acc ++ p)
        (fun q hq => hne q (List.mem_cons_of_mem p hq)) h2]
      simp only [List.join_cons, ← List.append_assoc]

lemma fetchCommitsGo_noLimit :
    ∀ (ps : List (List RawCommit)) (acc : List RawCommit),
      (∀ p ∈ ps, p ≠ []) →
      (fetchCommitsGo none ps acc).1 = acc ++ ps.join
  | [], acc, _ => by simp [fetchCommitsGo]
  | p :: ps, acc, hne => by
    have hp : ¬ p = [] := hne p (List.mem_cons_self p ps)
    simp only [fetchCommitsGo]
    rw [if_neg hp, if_neg (by simp [limitHitP])]
    show (fetchCommitsGo none ps (acc ++ p)).1 = _
    rw [fetchCommitsGo_noLimit ps (acc ++ p)
      (fun q hq => hne q (List.mem_cons_of_mem p hq))]
    simp only [List.join_cons, ← List.append_assoc]

lemma buildHistory_length (sd ed : Option ℤ) (u : Option String) :
    ∀ (l : List RawCommit) (acc m : CommitDict),
      buildHistory sd ed u l acc = .ok m → m.length ≤ acc.length + l.length
  | [], acc, m, h => by
    simp only [buildHistory] at h
    cases h
    simp
  | c :: rest, acc, m, h => by
    simp only [buildHistory] at h
    cases hm : commitMatch sd ed u c with
    | error e => rw [hm] at h; cases h
    | ok b =>
      rw [hm] at h
      cases b
      · have := buildHistory_length sd ed u rest acc m h
        simp only [List.length_cons]
        omega
      · have := buildHistory_length sd ed u rest _ m h
        have h2 := length_dictInsert_le acc c.sha (toCommitRec c)
        simp only [List.length_cons]
        omega

lemma buildHistory_mem (sd ed : Option ℤ) (u : Option String) :
    ∀ (l : List RawCommit) (acc m : CommitDict),
      buildHistory sd ed u l acc = .ok m →
      ∀ q ∈ m, q ∈ acc ∨
        ∃ c ∈ l, q = (c.sha, toCommitRec c) ∧ commitMatch sd ed u c = .ok true
  | [], acc, m, h => by
    simp only [buildHistory] at h
    cases h
    exact fun q hq => Or.inl hq
  | c :: rest, acc, m, h => by
    simp only [buildHistory] at h
    cases hm : commitMatch sd ed u c with
    | error e => rw [hm] at h; cases h
    | ok b =>
      rw [hm] at h
      cases b
      · intro q hq
        rcases buildHistory_mem sd ed u rest acc m h q hq with h1 | ⟨c1, hc1, h2⟩
        · exact Or.inl h1
        · exact Or.inr ⟨c1, List.mem_cons_of_mem c hc1, h2⟩
      · intro q hq
        rcases buildHistory_mem sd ed u rest _ m h q hq with h1 | ⟨c1, hc1, h2⟩
        · rcases mem_dictInsert h1 with h3 | h3
          · exact Or.inl h3
          · exact Or.inr ⟨c, List.mem_cons_self c rest, h3, hm⟩
        · exact Or.inr ⟨c1, List.mem_cons_of_mem c hc1, h2⟩

lemma commitMatch_ok_true {sd ed : Option ℤ} {u : Option String} {c : RawCommit}
    (h : commitMatch sd ed u c = .ok true) :
    startOkC sd c.commitAuthorDate = true ∧ endOkC ed c.commitAuthorDate = true ∧
      ∀ name, u = some name → c.author = some name := by
  unfold commitMatch at h
  by_cases h1 : startOkC sd c.commitAuthorDate
  · rw [if_pos h1] at h
    by_cases h2 : endOkC ed c.commitAuthorDate
    · rw [if_pos h2] at h
      refine ⟨h1, h2, ?_⟩
      intro name hu
      subst hu
      cases ha : c.author with
      | none => rw [ha] at h; cases h
      | some login =>
        rw [ha] at h
        simp only [Except.ok.injEq] at h
        rw [of_decide_eq_true h]
    · rw [if_neg h2] at h
      simp at h
  · rw [if_neg h1] at h
    simp at h

lemma startOkC_spec {sd : Option ℤ} {t : ℤ} (h : startOkC sd t = true) :
    ∀ d, sd = some d → startOfDay d ≤ t := by
  intro d hd
  subst hd
  simpa [startOkC] using h

lemma endOkC_spec {ed : Option ℤ} {t : ℤ} (h : endOkC ed t = true) :
    ∀ d, ed = some d → t ≤ endOfDay d := by
  intro d hd
  subst hd
  simpa [endOkC] using h

/-! ### Full-page and limit-reach characterizations of the scan -/

lemma scanPage_all_pass_none (sd ed : Option ℤ) :
    ∀ (l : List RawItem) (acc : ItemDict),
      (∀ it ∈ l, endSkip ed it.created_at = false ∧ startStop sd it.created_at = false) →
      (l.map RawItem.number).Nodup →
      (∀ it ∈ l, it.number ∉ dictKeys acc) →
      (scanPage sd ed none l acc).2 = false ∧
      dictKeys (scanPage sd ed none l acc).1 = dictKeys acc ++ l.map RawItem.number ∧
      (scanPage sd ed none l acc).1.length = acc.length + l.length
  | [], acc, _, _, _ => by simp [scanPage]
  | it :: rest, acc, hpass, hnd, hfresh => by
    have h1 := hpass it (List.mem_cons_self it rest)
    have hnd2 : it.number ∉ rest.map RawItem.number ∧ (rest.map RawItem.number).Nodup := by
      rw [List.map_cons, List.nodup_cons] at hnd
      exact hnd
    have hfreshit : it.number ∉ dictKeys acc := hfresh it (List.mem_cons_self it rest)
    have hkeys := keys_dictInsert_of_not_mem (toItemRecord it) hfreshit
    have hlen := length_dictInsert_of_not_mem (toItemRecord it) hfreshit
    simp only [scanPage]
    rw [if_neg (by simp [h1.1]), if_neg (by simp [h1.2]), if_neg (by simp [limitHitP])]
    have hrest := scanPage_all_pass_none sd ed rest
      (dictInsert acc it.number (toItemRecord it))
      (fun x hx => hpass x (List.mem_cons_of_mem it hx))
      hnd2.2
      (by
        intro x hx hmem
        rw [hkeys] at hmem
        rcases List.mem_append.1 hmem with h3 | h3
        · exact hfresh x (List.mem_cons_of_mem it hx) h3
        · simp only [List.mem_singleton] at h3
          exact hnd2.1 (h3 ▸ List.mem_map_of_mem RawItem.number hx))
    refine ⟨hrest.1, ?_, ?_⟩
    · rw [hrest.2.1, hkeys, List.map_cons, List.append_assoc]
      rfl
    · rw [hrest.2.2, hlen]
      simp only [List.length_cons]
      omega

lemma scanPage_reach_limit (sd ed : Option ℤ) (L : ℕ) (hL : 0 < L) :
    ∀ (l : List RawItem) (acc : ItemDict),
      (∀ it ∈ l, endSkip ed it.created_at = false ∧ startStop sd it.created_at = false) →
      (l.map RawItem.number).Nodup →
      (∀ it ∈ l, it.number ∉ dictKeys acc) →
      acc.length < L → L ≤ acc.length + l.length →
      (scanPage sd ed (some L) l acc).1.length = L ∧
      (scanPage sd ed (some L) l acc).2 = true
  | [], acc, _, _, _, hlt, hge => by
    simp only [List.length_nil] at hge
    omega
  | it :: rest, acc, hpass, hnd, hfresh, hlt, hge => by
    have h1 := hpass it (List.mem_cons_self it rest)
    have hnd2 : it.number ∉ rest.map RawItem.number ∧ (rest.map RawItem.number).Nodup := by
      rw [List.map_cons, List.nodup_cons] at hnd
      exact hnd
    have hfreshit : it.number ∉ dictKeys acc := hfresh it (List.mem_cons_self it rest)
    have hkeys := keys_dictInsert_of_not_mem (toItemRecord it) hfreshit
    have hlen := length_dictInsert_of_not_mem (toItemRecord it) hfreshit
    simp only [scanPage]
    rw [if_neg (by simp [h1.1]), if_neg (by simp [h1.2])]
    by_cases hhit : L ≤ (dictInsert acc it.number (toItemRecord it)).length
    · rw [if_pos ((limitHitP_some_iff L _ hL).2 hhit)]
      refine ⟨?_, rfl⟩
      show (dictInsert acc it.number (toItemRecord it)).length = L
      omega
    · rw [if_neg (fun hc => hhit ((limitHitP_some_iff L _ hL).1 hc))]
      apply scanPage_reach_limit sd ed L hL rest
        (dictInsert acc it.number (toItemRecord it))
        (fun x hx => hpass x (List.mem_cons_of_mem it hx))
        hnd2.2
      · intro x hx hmem
        rw [hkeys] at hmem
        rcases List.mem_append.1 hmem with h3 | h3
        · exact hfresh x (List.mem_cons_of_mem it hx) h3
        · simp only [List.mem_singleton] at h3
          exact hnd2.1 (h3 ▸ List.mem_map_of_mem RawItem.number hx)
      · omega
      · simp only [List.length_cons] at hge
        omega

lemma scan_three_full_pages (sd ed : Option ℤ) (p1 p2 p3 : List RawItem)
    (h1 : ¬ p1 = []) (h2 : ¬ p2 = []) (h3 : ¬ p3 = [])
    (hpass : ∀ it ∈ p1 ++ p2 ++ p3,
      endSkip ed it.created_at = false ∧ startStop sd it.created_at = false)
    (hnd : ((p1 ++ p2 ++ p3).map RawItem.number).Nodup) :
    (scanPages sd ed none [p1, p2, p3] []).1.length = p1.length + p2.length + p3.length ∧
    (scanPages sd ed none [p1, p2, p3] []).2 = 4 := by
  have hp1 : ∀ it ∈ p1, endSkip ed it.created_at = false ∧ startStop sd it.created_at = false :=
    fun it h => hpass it (by simp [h])
  have hp2 : ∀ it ∈ p2, endSkip ed it.created_at = false ∧ startStop sd it.created_at = false :=
    fun it h => hpass it (by simp [h])
  have hp3 : ∀ it ∈ p3, endSkip ed it.created_at = false ∧ startStop sd it.created_at = false :=
    fun it h => hpass it (by simp [h])
  rw [List.map_append, List.map_append] at hnd
  have hnd12 := (List.nodup_append.1 hnd).1
  have hnd3 := (List.nodup_append.1 hnd).2.1
  have hd123 := (List.nodup_append.1 hnd).2.2
  have hnd1 := (List.nodup_append.1 hnd12).1
  have hnd2 := (List.nodup_append.1 hnd12).2.1
  have hd12 := (List.nodup_append.1 hnd12).2.2
  -- page 1 over the empty accumulator
  have s1 := scanPage_all_pass_none sd ed p1 [] hp1 hnd1
    (by intro it _ hm; simp [dictKeys] at hm)
  have hk1 : dictKeys (scanPage sd ed none p1 []).1 = p1.map RawItem.number := by
    rw [s1.2.1]; rfl
  -- page 2 over the result of page 1
  have s2 := scanPage_all_pass_none sd ed p2 (scanPage sd ed none p1 []).1 hp2 hnd2
    (by
      intro it hx hm
      rw [hk1] at hm
      exact hd12 hm (List.mem_map_of_mem RawItem.number hx))
  have hk2 : dictKeys (scanPage sd ed none p2 (scanPage sd ed none p1 []).1).1 =
      p1.map RawItem.number ++ p2.map RawItem.number := by
    rw [s2.2.1, hk1]
  -- page 3 over the result of page 2
  have s3 := scanPage_all_pass_none sd ed p3
    (scanPage sd ed none p2 (scanPage sd ed none p1 []).1).1 hp3 hnd3
    (by
      intro it hx hm
      rw [hk2] at hm
      exact hd123 hm (List.mem_map_of_mem RawItem.number hx))
  simp only [scanPages]
  rw [if_neg h1, if_neg (by simp [s1.1]), if_neg h2, if_neg (by simp [s2.1]),
    if_neg h3, if_neg (by simp [s3.1])]
  constructor
  · show (scanPage sd ed none p3 _).1.length = _
    rw [s3.2.2, s2.2.2, s1.2.2]
    simp
  · rfl

lemma scanPagesE_ok (sd ed : Option ℤ) (lim : Option ℕ) :
    ∀ (ps : List (List RawItem)) (acc : ItemDict),
      scanPagesE sd ed lim (ps.map Except.ok) acc = .ok (scanPages sd ed lim ps acc)
  | [], acc => rfl
  | p :: ps, acc => by
    simp only [List.map_cons, scanPagesE, scanPages]
    by_cases hp : p = []
    · rw [if_pos hp, if_pos hp]
    · rw [if_neg hp, if_neg hp]
      by_cases hs : (scanPage sd ed lim p acc).2
      · rw [if_pos hs, if_pos hs]
      · rw [if_neg hs, if_neg hs, scanPagesE_ok sd ed lim ps]

lemma fetchCommitsGoE_ok (lim : Option ℕ) :
    ∀ (ps : List (List RawCommit)) (acc : List RawCommit),
      fetchCommitsGoE lim (ps.map Except.ok) acc = .ok (fetchCommitsGo lim ps acc)
  | [], acc => rfl
  | p :: ps, acc => by
    simp only [List.map_cons, fetchCommitsGoE, fetchCommitsGo]
    by_cases hp : p = []
    · rw [if_pos hp, if_pos hp]
    · rw [if_neg hp, if_neg hp]
      by_cases hl : limitHitP lim (acc ++ p).length
      · rw [if_pos hl, if_pos hl]
      · rw [if_neg hl, if_neg hl, fetchCommitsGoE_ok lim ps]

/-! ### Claim theorems -/

/-- C1: for every scan called with `start_date` set — `_process_items`, and
hence `get_issues` and `get_pull_requests` — every item in the returned
mapping has a `created_at` timestamp at or after start-of-day(`start_date`):
no returned item is older than the window start. -/
theorem c1_start_date_lower_bound (ep : String) (d : ℤ) (ed : Option ℤ)
    (u : Option String) (lim : Option ℕ) (pages : List (List RawItem)) :
    (∀ q ∈ (processItems ep (some d) ed u lim pages).1, startOfDay d ≤ q.2.created_at) ∧
    (∀ q ∈ (get_issues (some d) ed u lim pages).1, startOfDay d ≤ q.2.created_at) ∧
    (∀ q ∈ (get_pull_requests (some d) ed u lim pages).1, startOfDay d ≤ q.2.created_at) := by
  refine ⟨?_, ?_, ?_⟩ <;>
    exact scanPages_start_mem d ed lim pages []
      (fun q hq => absurd hq (List.not_mem_nil q))

theorem c1_witness :
    startOfDay 1 ≤ ((7, toItemRecord ⟨7, "t", "open", 86400, "u", "b"⟩) : ℕ × ItemRecord).2.created_at :=
  (c1_start_date_lower_bound "issues" 1 none none none
      [[⟨7, "t", "open", 86400, "u", "b"⟩]]).1
    (7, toItemRecord ⟨7, "t", "open", 86400, "u", "b"⟩) (by decide)

/-- C2: in `_process_items` with `start_date` set, an item whose
`created_at` is exactly `start_date T00:00:00Z` (and which passes the
end-date filter) is included in the result, while an item strictly before
start-of-day(`start_date`) is excluded and stops the entire scan
immediately: the scan returns exactly the items collected so far, and no
further items or pages are processed. -/
theorem c2_start_boundary (d : ℤ) (ed : Option ℤ) (lim : Option ℕ)
    (it : RawItem) (rest : List RawItem) (acc : ItemDict)
    (ps : List (List RawItem)) :
    (it.created_at = startOfDay d → endSkip ed it.created_at = false →
      it.number ∈ dictKeys (scanPages (some d) ed lim ((it :: rest) :: ps) acc).1) ∧
    (it.created_at < startOfDay d → endSkip ed it.created_at = false →
      scanPage (some d) ed lim (it :: rest) acc = (acc, true) ∧
      scanPages (some d) ed lim ((it :: rest) :: ps) acc = (acc, 1)) := by
  constructor
  · intro hb hskip
    have hstop : startStop (some d) it.created_at = false := by
      simp [startStop, hb]
    have hkey : it.number ∈ dictKeys (scanPage (some d) ed lim (it :: rest) acc).1 := by
      simp only [scanPage]
      rw [if_neg (by simp [hskip]), if_neg (by simp [hstop])]
      by_cases hl : limitHitP lim (dictInsert acc it.number (toItemRecord it)).length
      · rw [if_pos hl]
        exact (mem_keys_dictInsert _ _ _ _).2 (Or.inr rfl)
      · rw [if_neg hl]
        exact mem_keys_scanPage _ _ _ _ rest _
          ((mem_keys_dictInsert _ _ _ _).2 (Or.inr rfl))
    simp only [scanPages]
    rw [if_neg (by simp : ¬ it :: rest = [])]
    by_cases hs : (scanPage (some d) ed lim (it :: rest) acc).2
    · rw [if_pos hs]
      exact hkey
    · rw [if_neg hs]
      exact mem_keys_scanPages _ _ _ _ ps _ hkey
  · intro hlt hskip
    have hstop : startStop (some d) it.created_at = true := by
      simp [startStop, hlt]
    have hpage : scanPage (some d) ed lim (it :: rest) acc = (acc, true) := by
      simp only [scanPage]
      rw [if_neg (by simp [hskip]), if_pos hstop]
    refine ⟨hpage, ?_⟩
    simp only [scanPages]
    rw [if_neg (by simp : ¬ it :: rest = []), hpage]
    rfl

theorem c2_witness :
    (7 ∈ dictKeys (scanPages (some 1) none none
        [[⟨7, "t", "open", 86400, "u", "b"⟩]] []).1) ∧
    scanPage (some 1) none none [⟨8, "t", "open", 86399, "u", "b"⟩] [] = ([], true) ∧
    scanPages (some 1) none none [[⟨8, "t", "open", 86399, "u", "b"⟩]] [] = ([], 1) := by
  refine ⟨(c2_start_boundary 1 none none ⟨7, "t", "open", 86400, "u", "b"⟩ [] [] []).1
    (by decide) (by decide), ?_, ?_⟩
  · exact ((c2_start_boundary 1 none none ⟨8, "t", "open", 86399, "u", "b"⟩ [] [] []).2
      (by decide) (by decide)).1
  · exact ((c2_start_boundary 1 none none ⟨8, "t", "open", 86399, "u", "b"⟩ [] [] []).2
      (by decide) (by decide)).2

/-- C9: in `_process_items` with `end_date` set, an item strictly newer
than end-of-day(`end_date`) is skipped without being included and without
terminating the scan: processing the page continues exactly as if that
item were absent, so subsequent items and pages are still processed. -/
theorem c9_end_date_skip (sd : Option ℤ) (d : ℤ) (lim : Option ℕ)
    (it : RawItem) (rest : List RawItem) (acc : ItemDict)
    (h : endOfDay d < it.created_at) :
    scanPage sd (some d) lim (it :: rest) acc = scanPage sd (some d) lim rest acc := by
  simp only [scanPage]
  rw [if_pos (by simp [endSkip, h])]

theorem c9_witness :
    scanPage none (some 0) none [⟨1, "t", "open", 86400, "u", "b"⟩] [] =
      scanPage none (some 0) none [] [] :=
  c9_end_date_skip none 0 none ⟨1, "t", "open", 86400, "u", "b"⟩ [] [] (by decide)

/-- C3: for every scan with a (nonzero) limit `L` set, the returned mapping
of `_process_items` has at most `L` entries and so does the returned
mapping of `get_commit_history` (whose raw fetch phase also accumulates at
most `L` commits); moreover the per-page step and the page loop preserve
the bound starting from any accumulator strictly below `L`, so at every
intermediate step the accumulator never exceeds `L` entries. -/
theorem c3_limit_bound (ep : String) (sd ed : Option ℤ) (u : Option String)
    (L : ℕ) (pages : List (List RawItem)) (cpages : List (List RawCommit))
    (hL : 0 < L) :
    (processItems ep sd ed u (some L) pages).1.length ≤ L ∧
    (∀ m, get_commit_history sd ed u (some L) cpages = .ok m → m.length ≤ L) ∧
    (fetchCommitsGo (some L) cpages []).1.length ≤ L ∧
    (∀ (l : List RawItem) (acc : ItemDict), acc.length < L →
      (scanPage sd ed (some L) l acc).1.length ≤ L) ∧
    (∀ (ps : List (List RawItem)) (acc : ItemDict), acc.length < L →
      (scanPages sd ed (some L) ps acc).1.length ≤ L) := by
  have hfetch : (fetchCommitsGo (some L) cpages []).1.length ≤ L :=
    fetchCommitsGo_le L hL cpages [] (by simpa using hL)
  refine ⟨scanPages_le_limit sd ed L hL pages [] (by simpa using hL), ?_, hfetch,
    fun l acc h => (scanPage_le_limit sd ed L hL l acc h).1,
    fun ps acc h => scanPages_le_limit sd ed L hL ps acc h⟩
  intro m hm
  have hb := buildHistory_length sd ed u _ [] m hm
  simp only [List.length_nil, Nat.zero_add] at hb
  omega

theorem c3_witness :
    0 < 1 ∧
    (processItems "issues" none none none (some 1)
      [[⟨1, "t", "open", 5, "u", "b"⟩, ⟨2, "t", "open", 5, "u", "b"⟩]]).1.length ≤ 1 :=
  ⟨by decide,
    (c3_limit_bound "issues" none none none 1
      [[⟨1, "t", "open", 5, "u", "b"⟩, ⟨2, "t", "open", 5, "u", "b"⟩]] []
      (by decide)).1⟩

/-- C8: with `limit = 50` set and a first page of 100 items that all pass
the window filters (with the distinct ids the API guarantees), the scan
returns exactly 50 items and makes exactly 1 page request: the limit is
reached mid-page and page 2 is never fetched. -/
theorem c8_limit_mid_page (ep : String) (sd ed : Option ℤ) (u : Option String)
    (p : List RawItem) (ps : List (List RawItem))
    (hlen : p.length = 100)
    (hpass : ∀ it ∈ p, endSkip ed it.created_at = false ∧ startStop sd it.created_at = false)
    (hnd : (p.map RawItem.number).Nodup) :
    (processItems ep sd ed u (some 50) (p :: ps)).1.length = 50 ∧
    (processItems ep sd ed u (some 50) (p :: ps)).2 = 1 := by
  have hpne : ¬ p = [] := by
    intro h
    rw [h] at hlen
    simp at hlen
  have hreach := scanPage_reach_limit sd ed 50 (by decide) p [] hpass hnd
    (by intro it _ hm; simp [dictKeys] at hm)
    (by simp)
    (by rw [hlen]; simp)
  show (scanPages sd ed (some 50) (p :: ps) []).1.length = 50 ∧
    (scanPages sd ed (some 50) (p :: ps) []).2 = 1
  simp only [scanPages]
  rw [if_neg hpne, if_pos hreach.2]
  exact ⟨hreach.1, rfl⟩

/-- A sample in-window item used in concrete evaluations: its timestamp
50000 lies inside day 0 (0 ≤ 50000 ≤ 86399). -/
def sampleItem (n : ℕ) : RawItem := ⟨n, "t", "open", 50000, "u", "b"⟩

/-- A sample page of `count` items with ids `base, base+1, ...`. -/
def samplePage (base count : ℕ) : List RawItem :=
  (List.range count).map (fun n => sampleItem (base + n))

theorem c8_witness :
    (processItems "issues" (some 0) (some 0) none (some 50)
      [samplePage 0 100, samplePage 100 100]).1.length = 50 ∧
    (processItems "issues" (some 0) (some 0) none (some 50)
      [samplePage 0 100, samplePage 100 100]).2 = 1 :=
  c8_limit_mid_page "issues" (some 0) (some 0) none (samplePage 0 100)
    [samplePage 100 100] (by decide) (by decide) (by decide)

/-- C4: `get_commit_history` does not early-stop on date.  Its fetch phase
never consults the dates or the username: over any source without interior
empty pages it accumulates exactly the concatenation of all pages,
truncated to `limit` when one is set; `get_commit_history` is literally
the client-side filter applied to that accumulated list; and every commit
in a successful result satisfies the start-date, end-date and username
filters. -/
theorem c4_fetch_then_filter (sd ed : Option ℤ) (u : Option String)
    (cpages : List (List RawCommit)) (hne : ∀ p ∈ cpages, p ≠ []) :
    (∀ L, 0 < L → (fetchCommitsGo (some L) cpages []).1 = cpages.join.take L) ∧
    (fetchCommitsGo none cpages []).1 = cpages.join ∧
    (∀ lim, get_commit_history sd ed u lim cpages =
      buildHistory sd ed u (fetchCommitsGo lim cpages []).1 []) ∧
    (∀ lim m, get_commit_history sd ed u lim cpages = .ok m →
      ∀ q ∈ m, (∀ d, sd = some d → startOfDay d ≤ q.2.date) ∧
        (∀ d, ed = some d → q.2.date ≤ endOfDay d) ∧
        (∀ name, u = some name → q.2.username = some name)) := by
  refine ⟨?_, ?_, fun lim => rfl, ?_⟩
  · intro L hL
    simpa using fetchCommitsGo_take L hL cpages [] hne (by simpa using hL)
  · simpa using fetchCommitsGo_noLimit cpages [] hne
  · intro lim m hm q hq
    rcases buildHistory_mem sd ed u _ [] m hm q hq with h1 | ⟨c, _, hq2, hmatch⟩
    · simp at h1
    · obtain ⟨hs, he, hu⟩ := commitMatch_ok_true hmatch
      subst hq2
      exact ⟨fun d hd => startOkC_spec hs d hd,
        fun d hd => endOkC_spec he d hd,
        fun name hn => hu name hn⟩

theorem c4_witness :
    (fetchCommitsGo (some 1)
      [[⟨"s1", "A", 5, "m", some "a"⟩, ⟨"s2", "A", 5, "m", some "a"⟩]] []).1 =
    ([[⟨"s1", "A", 5, "m", some "a"⟩, ⟨"s2", "A", 5, "m", some "a"⟩]] :
      List (List RawCommit)).join.take 1 :=
  (c4_fetch_then_filter none none none
      [[⟨"s1", "A", 5, "m", some "a"⟩, ⟨"s2", "A", 5, "m", some "a"⟩]]
      (by decide)).1 1 (by decide)

set_option maxRecDepth 16384

/-- C5 (counterexample to the claim as stated): for a concrete source with
exactly 3 pages of 100, 100 and 40 in-window items, distinct ids, no
limit, the scan does NOT make exactly 3 page requests while returning 240
items — it makes a 4th request, which returns the empty page that
terminates the loop. -/
theorem c5_counterexample :
    ¬ ((processItems "issues" (some 0) (some 0) none none
        [samplePage 0 100, samplePage 100 100, samplePage 200 40]).2 = 3 ∧
      (processItems "issues" (some 0) (some 0) none none
        [samplePage 0 100, samplePage 100 100, samplePage 200 40]).1.length = 240) := by
  intro hc
  have h := scan_three_full_pages (some 0) (some 0)
    (samplePage 0 100) (samplePage 100 100) (samplePage 200 40)
    (by decide) (by decide) (by decide) (by decide) (by decide)
  have h4 : (processItems "issues" (some 0) (some 0) none none
      [samplePage 0 100, samplePage 100 100, samplePage 200 40]).2 = 4 := h.2
  rw [hc.1] at h4
  exact absurd h4 (by decide)

/-- C5 (amended): when the source has exactly 3 pages of 100, 100 and 40
items, all within the window and with distinct ids, and no limit is set,
the scan returns a mapping of 240 items and makes exactly 4 page requests:
one per non-empty page plus a final request that returns the empty page
signalling exhaustion (the loop has no short-page check, so it cannot
detect exhaustion without that extra request). -/
theorem c5_amended_four_requests (ep : String) (sd ed : Option ℤ) (u : Option String)
    (p1 p2 p3 : List RawItem)
    (hl1 : p1.length = 100) (hl2 : p2.length = 100) (hl3 : p3.length = 40)
    (hpass : ∀ it ∈ p1 ++ p2 ++ p3,
      endSkip ed it.created_at = false ∧ startStop sd it.created_at = false)
    (hnd : ((p1 ++ p2 ++ p3).map RawItem.number).Nodup) :
    (processItems ep sd ed u none [p1, p2, p3]).1.length = 240 ∧
    (processItems ep sd ed u none [p1, p2, p3]).2 = 4 := by
  have h := scan_three_full_pages sd ed p1 p2 p3
    (by intro h; rw [h] at hl1; simp at hl1)
    (by intro h; rw [h] at hl2; simp at hl2)
    (by intro h; rw [h] at hl3; simp at hl3)
    hpass hnd
  refine ⟨?_, h.2⟩
  show (scanPages sd ed none [p1, p2, p3] []).1.length = 240
  rw [h.1, hl1, hl2, hl3]

theorem c5_amended_witness :
    (processItems "issues" (some 0) (some 0) none none
      [samplePage 0 100, samplePage 100 100, samplePage 200 40]).1.length = 240 ∧
    (processItems "issues" (some 0) (some 0) none none
      [samplePage 0 100, samplePage 100 100, samplePage 200 40]).2 = 4 :=
  c5_amended_four_requests "issues" (some 0) (some 0) none
    (samplePage 0 100) (samplePage 100 100) (samplePage 200 40)
    (by decide) (by decide) (by decide) (by decide) (by decide)

/-- C6 (the code evaluated at the claim's inputs): an absent `license` is
mapped by `get_license` to a record with `None` name and `None` url, and a
commit with a `null` author has its `username` field mapped to `None` by
`get_commit_history` when no username filter is given — but when a
username filter IS set, the same null-author commit makes
`get_commit_history` raise `TypeError` (line 205 subscripts
`commit['author']` without the null guard that line 208 has), so the
"including when a username filter argument is set" part of the claim fails
on the code. -/
theorem c6_null_optional_fields :
    get_license (.ok ⟨none⟩) = .ok ⟨none, none⟩ ∧
    get_commit_history none none none none
      [[⟨"abc", "Alice", 100, "msg", none⟩]] =
      .ok [("abc", ⟨"Alice", none, 100, "msg"⟩)] ∧
    get_commit_history none none (some "alice") none
      [[⟨"abc", "Alice", 100, "msg", none⟩]] = .error .typeError :=
  ⟨rfl, rfl, rfl⟩

/-- C7: every call of `get_user_activity` that supplies an explicit
`end_date` hits the `zinfo` keyword of line 293 — not an accepted keyword
of `datetime.replace` — so the period computation raises `TypeError` and
the whole call fails with `TypeError` regardless of every remote data
source (hence before any request is made); the period computation succeeds
for every call that omits `end_date`. -/
theorem c7_end_date_zinfo_type_error (username : String) (sd : Option ℤ)
    (d nowDay : ℤ) (commitPages : List (List RawCommit))
    (prPages issuePages : List (List RawItem))
    (prCommits : ℕ → List PRCommitRaw) :
    activityPeriod nowDay sd (some d) = .error .typeError ∧
    get_user_activity username sd (some d) nowDay commitPages prPages
      issuePages prCommits = .error .typeError ∧
    (∀ s, ∃ p, activityPeriod nowDay s none = .ok p) := by
  have hz : datetimeReplaceAccepts "zinfo" = false := by decide
  have hper : activityPeriod nowDay sd (some d) = .error .typeError := by
    simp [activityPeriod, hz]
  refine ⟨hper, ?_, ?_⟩
  · simp only [get_user_activity, hper]
  · intro s
    cases s with
    | none => exact ⟨(nowDay - 6, nowDay), rfl⟩
    | some v => exact ⟨(v, nowDay), rfl⟩

/-- C10 (the code evaluated at the claim's inputs): a transport failure
propagates uncaught from the page loop of `_process_items`, the fetch
loop of `get_commit_history`, `get_license`, `get_contributors`,
`get_pull_request_commits`, `get_releases`, and from the directory
listing of `get_source_code`; `get_pull_request_diff` catches the failure
and returns the placeholder string (with or without a status code); and
`get_source_code` converts a per-file download failure carrying a status
code into a per-file placeholder entry — but a per-file download failure
without a status code (`e.response is None`) raises `AttributeError` on
line 160's `e.response.status_code` and aborts the whole call, so for
that case the "does not abort the batch" part of the claim fails on the
code. -/
theorem c10_transport_failure_handling (e : TransportErr) (sd ed : Option ℤ)
    (lim : Option ℕ) (ps : List (Except TransportErr (List RawItem)))
    (cps : List (Except TransportErr (List RawCommit)))
    (acc : ItemDict) (cacc : List RawCommit) (pr perPage : ℕ)
    (msg : String) (code : ℕ) :
    scanPagesE sd ed lim (.error e :: ps) acc = .error e ∧
    fetchCommitsGoE lim (.error e :: cps) cacc = .error e ∧
    get_license (.error e) = .error e ∧
    get_contributors (.error e) = .error e ∧
    get_pull_request_commits (.error e) = .error e ∧
    get_releases perPage (.error e) = .error e ∧
    get_source_code (.error e) = .error (.transport e) ∧
    get_pull_request_diff (α := List PRCommitRaw) pr (.error e) =
      .inr ("Unable to fetch diff: Error fetching PR #" ++ toString pr
        ++ " diff: " ++ e.message ++ statusSuffix e.status) ∧
    get_source_code (.ok [⟨"a.py", .download (.error ⟨msg, some code⟩)⟩]) =
      .ok [("a.py", "Unable to process content: Error: " ++ msg
        ++ " (Status code: " ++ toString code ++ ")")] ∧
    get_source_code (.ok [⟨"a.py", .download (.error ⟨msg, none⟩)⟩]) =
      .error .attributeError :=
  ⟨rfl, rfl, rfl, rfl, rfl, rfl, rfl, rfl, rfl, rfl⟩

end GitHubIntegration
